import Mathlib

/-!
Verification of the pooled buffer allocator in `src/buf.rs` of the
common-utils repository.

The Rust code is shallowly embedded as follows.

* A `Buf` is a single pointer to a header (a length word and a
  capacity word whose most significant bit is the pooled flag)
  followed by the data bytes.  We model it as a structure holding the
  masked capacity (`cap`, the low 31 bits of the capacity word), the
  pooled flag bit (`pooled`), and the observable content `data`: the
  first `len` bytes of the data area, exactly the slice that
  `as_ref`/`as_slice` exposes.  The stored length word is
  `data.length`.  Bytes are modelled as natural numbers since the code
  only ever copies them.

* Constructor assertions (panics) are modelled by `Option`: `none` is
  a panic, `some` the constructed value.

* The pool (`Pool` handle plus the shared `PoolInner` control block)
  is modelled as one state structure.  The mutex-guarded cursor region
  `pool_start .. pool.0` is modelled by the list `freeSlots` of the
  buffer states the free-list pointers point at (head = top of the
  stack, the slot `get` would pop next); `ownerDropped` is the boolean
  `pool.1`.  Three instrumentation fields track what the heap makes
  implicit in Rust: `outstanding` counts checked-out pooled buffers,
  `handleLive` records whether the `Pool` handle still exists, and
  `deallocated` records whether the backing allocation of the arena
  has been freed (`PoolInner::dealloc`).

* The lifecycle of one arena is a transition system: events are calls
  of `Pool::get`, drops of checked-out pooled buffers, and the drop of
  the `Pool` handle; `step` gives the successor state (`none` when the
  event is not enabled or the code panics), `run` iterates it, and
  `Reachable` closes `Pool::new` under `step`.
-/

/-- `Buf::MAX_CAPACITY`, the maximum allowed capacity of an individual
buffer: `0x7fffffff` (the most significant bit of the capacity word is
the pooled flag). -/
def MAX_CAPACITY : Nat := 0x7fffffff

/-- Model of the Rust `Buf`: masked capacity, pooled flag bit, and the
length-bounded content of the data area. -/
structure Buf where
  cap : Nat
  pooled : Bool
  data : List Nat
deriving DecidableEq, Repr

/-- The capacity assertion shared by `Buf::new` and `Pool::new`:
`buf_capacity <= Buf::MAX_CAPACITY && buf_capacity > 0 && (buf_capacity % 8) == 0`. -/
def validCapacity (c : Nat) : Bool :=
  decide (c ≤ MAX_CAPACITY) && decide (0 < c) && (c % 8 == 0)

/-- `Buf::new`: allocate an individual (unpooled) buffer with the given
capacity and length 0.  `none` models the assertion panic on an invalid
capacity. -/
def Buf.new (buf_capacity : Nat) : Option Buf :=
  if validCapacity buf_capacity then some ⟨buf_capacity, false, []⟩ else none

/-- `Buf::len`: the stored length word. -/
def Buf.len (b : Buf) : Nat := b.data.length

/-- `Buf::is_empty`: whether the stored length word is 0. -/
def Buf.is_empty (b : Buf) : Bool := b.data.length == 0

/-- `Buf::capacity`: the capacity word with the pooled flag masked off
(`& 0x7fffffff`). -/
def Buf.capacity (b : Buf) : Nat := b.cap

/-- `Buf::clear`: set the length word to 0 (the memory itself is not
zeroed; no bytes beyond the length are observable). -/
def Buf.clear (b : Buf) : Buf := { b with data := [] }

/-- `Buf::as_slice` / `<Buf as AsRef<[u8]>>::as_ref`: the first `len`
bytes of the data area. -/
def Buf.as_slice (b : Buf) : List Nat := b.data

/-- `Buf::append`: if `len + buf.len() <= capacity`, write the slice
after the current content, store the new length and return `true`;
otherwise return `false` and leave the buffer untouched.  The pair is
(returned bool, buffer state after the call). -/
def Buf.append (b : Buf) (s : List Nat) : Bool × Buf :=
  if b.data.length + s.length ≤ b.cap then
    (true, { b with data := b.data ++ s })
  else
    (false, b)

/-- The error value `<Buf as Write>::write` produces on insufficient
capacity (`io::ErrorKind::OutOfMemory`, message "insufficient capacity"). -/
inductive WriteError where
  | insufficientCapacity
deriving DecidableEq, Repr

/-- `<Buf as Write>::write`: call `append`; on `true` return
`Ok(buf.len())`, on `false` return the capacity error.  The buffer state
is whatever `append` left. -/
def Buf.write (b : Buf) (s : List Nat) : Except WriteError Nat × Buf :=
  match b.append s with
  | (true, b1) => (Except.ok s.length, b1)
  | (false, b1) => (Except.error WriteError.insufficientCapacity, b1)

/-- The two branches of `impl Drop for Buf`, selected by the pooled flag
bit of the capacity word: flag clear deallocates the buffer directly,
flag set returns the pointer to the free list of its arena. -/
inductive DropAction where
  | deallocate
  | returnToPool
deriving DecidableEq, Repr

/-- Which branch `impl Drop for Buf` takes for a given buffer. -/
def Buf.dropAction (b : Buf) : DropAction :=
  if b.pooled then DropAction.returnToPool else DropAction.deallocate

/-- `impl Clone for Buf`: `Buf::new(self.capacity())` followed by
`let _ = c.append(self.as_slice())`.  `none` models the panic of
`Buf::new` on an invalid capacity (never hit for buffers the library
itself constructed). -/
def Buf.clone (b : Buf) : Option Buf :=
  (Buf.new b.capacity).map (fun c => (c.append b.as_slice).snd)

/-- Model of one arena: the `PoolInner` control block together with the
instrumentation fields described in the file header. -/
structure Pool where
  buf_capacity : Nat
  pool_capacity : Nat
  freeSlots : List Buf
  ownerDropped : Bool
  outstanding : Nat
  handleLive : Bool
  deallocated : Bool
deriving DecidableEq, Repr

/-- `Pool::new`: assert the capacity conditions and `pool_capacity > 0`
(`none` is the panic), then build the arena with every slot stamped
length 0, capacity `buf_capacity` with the pooled flag set, and the free
list full. -/
def Pool.new (buf_capacity pool_capacity : Nat) : Option Pool :=
  if validCapacity buf_capacity && decide (0 < pool_capacity) then
    some { buf_capacity := buf_capacity
           pool_capacity := pool_capacity
           freeSlots := List.replicate pool_capacity ⟨buf_capacity, true, []⟩
           ownerDropped := false
           outstanding := 0
           handleLive := true
           deallocated := false }
  else
    none

/-- `Pool::pool_remaining`: the offset of the free-list cursor from
`pool_start`, i.e. the number of slots currently in the free list. -/
def Pool.pool_remaining (p : Pool) : Nat := p.freeSlots.length

/-- `Pool::get`: under the mutex, if the cursor is not at `pool_start`
pop the top pointer and wrap it; otherwise fall back to
`Buf::new(buf_capacity)` (a standalone allocation, pooled flag clear).
The pair is (returned buffer, arena state after the call); `none`
models a panic of the fallback `Buf::new` (never hit: `Pool::new`
validated the capacity). -/
def Pool.get (p : Pool) : Option (Buf × Pool) :=
  match p.freeSlots with
  | b :: rest =>
    some (b, { p with freeSlots := rest, outstanding := p.outstanding + 1 })
  | [] => (Buf.new p.buf_capacity).map (fun nb => (nb, p))

/-- `Pool::get_with_min_capacity`: if `buf_capacity >= min_capacity`
delegate to `get`, else `Buf::new(min_capacity)` (whose assertion can
panic, modelled by `none`). -/
def Pool.get_with_min_capacity (p : Pool) (min_capacity : Nat) : Option (Buf × Pool) :=
  if min_capacity ≤ p.buf_capacity then p.get
  else (Buf.new min_capacity).map (fun nb => (nb, p))

/-- The pooled branch of `impl Drop for Buf` for a buffer of this
arena: clear the length word, assert the free list is not already full
(`none` is that panic), push the pointer, and if the cursor reached
`pool_end` with the owner-dropped flag set, deallocate the arena. -/
def Pool.dropBuf (p : Pool) (b : Buf) : Option Pool :=
  if p.freeSlots.length == p.pool_capacity then
    none
  else if (Buf.clear b :: p.freeSlots).length == p.pool_capacity && p.ownerDropped then
    some { p with
      freeSlots := Buf.clear b :: p.freeSlots
      outstanding := p.outstanding - 1
      deallocated := true }
  else
    some { p with
      freeSlots := Buf.clear b :: p.freeSlots
      outstanding := p.outstanding - 1 }

/-- `impl Drop for Pool`: if the free list is full AND the dropped flag
is already set, deallocate; otherwise only set the dropped flag.  The
handle ceases to exist either way. -/
def Pool.drop (p : Pool) : Pool :=
  if p.freeSlots.length == p.pool_capacity && p.ownerDropped then
    { p with deallocated := true, handleLive := false }
  else
    { p with ownerDropped := true, handleLive := false }

/-- Events in the life of one arena. -/
inductive Event where
  | get
  | dropBuf (b : Buf)
  | dropPool
deriving DecidableEq, Repr

/-- One step of the arena transition system.  `Event.get` needs the
live handle; `Event.dropBuf b` needs a checked-out pooled buffer to
exist, and `b` (its state at drop time) carries the immutable header
facts of a buffer carved from this arena: pooled flag set, masked
capacity equal to `buf_capacity`; `Event.dropPool` needs the live
handle.  `none` is a disabled event or a panic inside the call. -/
def step (p : Pool) : Event → Option Pool
  | Event.get => if p.handleLive then Option.map Prod.snd p.get else none
  | Event.dropBuf b =>
    if 0 < p.outstanding ∧ b.pooled = true ∧ b.cap = p.buf_capacity then
      p.dropBuf b
    else
      none
  | Event.dropPool => if p.handleLive then some p.drop else none

/-- Iterated `step`. -/
def run : Pool → List Event → Option Pool
  | p, [] => some p
  | p, e :: es =>
    match step p e with
    | some p1 => run p1 es
    | none => none

/-- States reachable from a given arena state. -/
def ReachableFrom (init p : Pool) : Prop := ∃ es, run init es = some p

/-- States reachable from some freshly constructed arena. -/
def Reachable (p : Pool) : Prop :=
  ∃ c n init, Pool.new c n = some init ∧ ReachableFrom init p

/-- The inductive invariant of the arena transition system. -/
def PoolInv (p : Pool) : Prop :=
  validCapacity p.buf_capacity = true ∧
  0 < p.pool_capacity ∧
  p.freeSlots.length + p.outstanding = p.pool_capacity ∧
  (∀ b ∈ p.freeSlots, b.cap = p.buf_capacity ∧ b.pooled = true ∧ b.data = []) ∧
  (p.handleLive = true → p.ownerDropped = false) ∧
  (p.deallocated = true → p.ownerDropped = true ∧ p.outstanding = 0)

example : (Buf.new 8).map Buf.len = some 0 := by decide
example : Buf.new 9 = none := by decide
example : (Pool.new 8 2).map Pool.pool_remaining = some 2 := by decide
example :
    ((Pool.new 8 1).map fun p => (p.drop.deallocated, p.drop.ownerDropped)) =
      some (false, true) := by decide
example : ((Pool.new 8 1).bind fun p => p.get_with_min_capacity 9) = none := by decide
example :
    (Buf.append ⟨8, false, [1, 2]⟩ [3, 4]) = (true, ⟨8, false, [1, 2, 3, 4]⟩) := by decide
example :
    (Buf.append ⟨8, false, [1, 2]⟩ [3, 4, 5, 6, 7, 8, 9]) =
      (false, ⟨8, false, [1, 2]⟩) := by decide

lemma inv_new {c n : Nat} {p : Pool} (h : Pool.new c n = some p) : PoolInv p := by
  unfold Pool.new at h
  split at h
  · rename_i hc
    simp only [Bool.and_eq_true, decide_eq_true_eq] at hc
    cases h
    refine ⟨hc.1, hc.2, by simp, ?_, fun _ => rfl, by simp⟩
    intro b hb
    have hb' := List.eq_of_mem_replicate hb
    subst hb'
    exact ⟨rfl, rfl, rfl⟩
  · cases h

lemma get_of_inv {p : Pool} (hp : PoolInv p) :
    (p.freeSlots = [] ∧ p.get = some (⟨p.buf_capacity, false, []⟩, p)) ∨
    (∃ b rest, p.freeSlots = b :: rest ∧ b.cap = p.buf_capacity ∧ b.pooled = true ∧
      b.data = [] ∧
      p.get = some (b, { p with freeSlots := rest, outstanding := p.outstanding + 1 })) := by
  obtain ⟨hvc, _, _, hslots, _, _⟩ := hp
  cases hfs : p.freeSlots with
  | nil =>
    left
    refine ⟨rfl, ?_⟩
    unfold Pool.get
    rw [hfs]
    unfold Buf.new
    rw [if_pos hvc]
    rfl
  | cons b rest =>
    right
    obtain ⟨h1, h2, h3⟩ := hslots b (by rw [hfs]; exact List.mem_cons_self b rest)
    refine ⟨b, rest, rfl, h1, h2, h3, ?_⟩
    unfold Pool.get
    rw [hfs]

lemma inv_step {p p1 : Pool} {e : Event} (hp : PoolInv p) (h : step p e = some p1) :
    PoolInv p1 := by
  obtain ⟨hvc, hn, hsum, hslots, hflag, hdead⟩ := hp
  cases e with
  | get =>
    simp only [step] at h
    split at h
    · rename_i hlive
      rcases get_of_inv ⟨hvc, hn, hsum, hslots, hflag, hdead⟩ with
        ⟨hfs, hget⟩ | ⟨b, rest, hfs, _, _, _, hget⟩
      · rw [hget] at h
        simp only [Option.map_some'] at h
        cases h
        exact ⟨hvc, hn, hsum, hslots, hflag, hdead⟩
      · rw [hget] at h
        simp only [Option.map_some'] at h
        cases h
        refine ⟨hvc, hn, ?_, ?_, hflag, ?_⟩
        · rw [hfs] at hsum
          simp only [List.length_cons] at hsum
          show rest.length + (p.outstanding + 1) = p.pool_capacity
          omega
        · intro x hx
          exact hslots x (by rw [hfs]; exact List.mem_cons_of_mem _ hx)
        · intro hd
          have h1 := hdead hd
          have h2 := hflag hlive
          rw [h1.1] at h2
          cases h2
    · cases h
  | dropBuf b =>
    simp only [step] at h
    split at h
    · rename_i hguard
      obtain ⟨hout, hbp, hbc⟩ := hguard
      unfold Pool.dropBuf at h
      rw [if_neg (by simp only [beq_iff_eq]; omega)] at h
      split at h
      · rename_i hcond
        simp only [List.length_cons, beq_iff_eq, Bool.and_eq_true, decide_eq_true_eq] at hcond
        cases h
        refine ⟨hvc, hn, ?_, ?_, ?_, ?_⟩
        · show (Buf.clear b :: p.freeSlots).length + (p.outstanding - 1) = p.pool_capacity
          simp only [List.length_cons]
          omega
        · intro x hx
          rcases List.mem_cons.mp hx with hx | hx
          · subst hx
            exact ⟨hbc, hbp, rfl⟩
          · exact hslots x hx
        · intro hl
          have h2 := hflag hl
          rw [hcond.2] at h2
          cases h2
        · intro _
          refine ⟨hcond.2, ?_⟩
          show p.outstanding - 1 = 0
          omega
      · rename_i hcond
        cases h
        refine ⟨hvc, hn, ?_, ?_, hflag, ?_⟩
        · show (Buf.clear b :: p.freeSlots).length + (p.outstanding - 1) = p.pool_capacity
          simp only [List.length_cons]
          omega
        · intro x hx
          rcases List.mem_cons.mp hx with hx | hx
          · subst hx
            exact ⟨hbc, hbp, rfl⟩
          · exact hslots x hx
        · intro hd
          have h1 := hdead hd
          exact absurd h1.2 (by omega)
    · cases h
  | dropPool =>
    simp only [step] at h
    split at h
    · rename_i hlive
      cases h
      have how := hflag hlive
      unfold Pool.drop
      rw [if_neg (by rw [how]; simp)]
      refine ⟨hvc, hn, hsum, hslots, by simp, ?_⟩
      intro hd
      have h1 := hdead hd
      rw [how] at h1
      cases h1.1
    · cases h

lemma inv_run {es : List Event} {p p1 : Pool} (hp : PoolInv p) (h : run p es = some p1) :
    PoolInv p1 := by
  induction es generalizing p with
  | nil =>
    simp only [run] at h
    cases h
    exact hp
  | cons e es ih =>
    simp only [run] at h
    cases hs : step p e with
    | none => rw [hs] at h; cases h
    | some q => rw [hs] at h; exact ih (inv_step hp hs) h

lemma inv_reachable {p : Pool} (h : Reachable p) : PoolInv p := by
  obtain ⟨c, n, init, hnew, es, hrun⟩ := h
  exact inv_run (inv_new hnew) hrun


lemma step_get_eq {p : Pool} {b : Buf} {rest : List Buf} (hlive : p.handleLive = true)
    (hfs : p.freeSlots = b :: rest) :
    step p Event.get =
      some { p with freeSlots := rest, outstanding := p.outstanding + 1 } := by
  show (if p.handleLive = true then Option.map Prod.snd p.get else none) = _
  rw [if_pos hlive]
  unfold Pool.get
  rw [hfs]
  rfl

lemma step_dropBuf_eq {p : Pool} {b : Buf} (hout : 0 < p.outstanding)
    (hbp : b.pooled = true) (hbc : b.cap = p.buf_capacity)
    (hnotfull : p.freeSlots.length ≠ p.pool_capacity) :
    step p (Event.dropBuf b) =
      if p.freeSlots.length + 1 = p.pool_capacity ∧ p.ownerDropped = true then
        some { p with
          freeSlots := Buf.clear b :: p.freeSlots
          outstanding := p.outstanding - 1
          deallocated := true }
      else
        some { p with
          freeSlots := Buf.clear b :: p.freeSlots
          outstanding := p.outstanding - 1 } := by
  show (if 0 < p.outstanding ∧ b.pooled = true ∧ b.cap = p.buf_capacity then
          p.dropBuf b else none) = _
  rw [if_pos ⟨hout, hbp, hbc⟩]
  unfold Pool.dropBuf
  rw [if_neg (by simp only [beq_iff_eq]; exact hnotfull)]
  simp only [List.length_cons, Bool.and_eq_true, beq_iff_eq]

lemma run_gets (k : Nat) : ∀ p : Pool, p.handleLive = true → k ≤ p.freeSlots.length →
    ∃ p2, run p (List.replicate k Event.get) = some p2 ∧
      p2.buf_capacity = p.buf_capacity ∧
      p2.pool_capacity = p.pool_capacity ∧
      p2.freeSlots = p.freeSlots.drop k ∧
      p2.outstanding = p.outstanding + k ∧
      p2.ownerDropped = p.ownerDropped ∧
      p2.handleLive = p.handleLive ∧
      p2.deallocated = p.deallocated := by
  induction k with
  | zero =>
    intro p _ _
    exact ⟨p, rfl, rfl, rfl, by simp, rfl, rfl, rfl, rfl⟩
  | succ k ih =>
    intro p hlive hk
    cases hfs : p.freeSlots with
    | nil =>
      rw [hfs] at hk
      simp at hk
    | cons b rest =>
      rw [hfs] at hk
      simp only [List.length_cons] at hk
      obtain ⟨p2, hr, h1, h2, h3, h4, h5, h6, h7⟩ :=
        ih { p with freeSlots := rest, outstanding := p.outstanding + 1 } hlive
          (by show k ≤ rest.length; omega)
      refine ⟨p2, ?_, h1, h2, ?_, ?_, h5, h6, h7⟩
      · rw [List.replicate_succ]
        simp only [run, step_get_eq hlive hfs]
        exact hr
      · rw [h3]
        show rest.drop k = (b :: rest).drop (k + 1)
        rw [List.drop_succ_cons]
      · rw [h4]
        show p.outstanding + 1 + k = p.outstanding + (k + 1)
        omega

lemma run_dropBufs (bs : List Buf) : ∀ p : Pool,
    p.freeSlots.length + p.outstanding = p.pool_capacity →
    p.deallocated = (p.ownerDropped && decide (p.outstanding = 0)) →
    bs.length ≤ p.outstanding →
    (∀ b ∈ bs, b.pooled = true ∧ b.cap = p.buf_capacity) →
    ∃ p2, run p (bs.map Event.dropBuf) = some p2 ∧
      p2.buf_capacity = p.buf_capacity ∧
      p2.pool_capacity = p.pool_capacity ∧
      p2.ownerDropped = p.ownerDropped ∧
      p2.handleLive = p.handleLive ∧
      p2.outstanding = p.outstanding - bs.length ∧
      p2.freeSlots.length = p.freeSlots.length + bs.length ∧
      p2.deallocated = (p.ownerDropped && decide (p.outstanding - bs.length = 0)) := by
  induction bs with
  | nil =>
    intro p _ hdead _ _
    refine ⟨p, rfl, rfl, rfl, rfl, rfl, by simp, by simp, ?_⟩
    simpa using hdead
  | cons b bs ih =>
    intro p hsum hdead hlen hmem
    simp only [List.length_cons] at hlen
    have hout : 0 < p.outstanding := by omega
    obtain ⟨hbp, hbc⟩ := hmem b (List.mem_cons_self b bs)
    have hnotfull : p.freeSlots.length ≠ p.pool_capacity := by omega
    have hstep := step_dropBuf_eq hout hbp hbc hnotfull
    have hout0 : decide (p.outstanding = 0) = false := by
      simp only [decide_eq_false_iff_not]
      omega
    by_cases hc : p.freeSlots.length + 1 = p.pool_capacity ∧ p.ownerDropped = true
    · rw [if_pos hc] at hstep
      have hone : p.outstanding = 1 := by omega
      obtain ⟨p2, hr, h1, h2, h3, h4, h5, h6, h7⟩ :=
        ih { p with
              freeSlots := Buf.clear b :: p.freeSlots
              outstanding := p.outstanding - 1
              deallocated := true }
          (by show (Buf.clear b :: p.freeSlots).length + (p.outstanding - 1) = p.pool_capacity
              simp only [List.length_cons]
              omega)
          (by show true = (p.ownerDropped && decide (p.outstanding - 1 = 0))
              rw [hc.2, hone]
              simp)
          (by show bs.length ≤ p.outstanding - 1; omega)
          (fun x hx => hmem x (List.mem_cons_of_mem _ hx))
      refine ⟨p2, ?_, h1, h2, ?_, h4, ?_, ?_, ?_⟩
      · simp only [List.map_cons, run, hstep]
        exact hr
      · rw [h3]
      · rw [h5]
        show p.outstanding - 1 - bs.length = p.outstanding - (bs.length + 1)
        omega
      · rw [h6]
        simp only [List.length_cons]
        show p.freeSlots.length + 1 + bs.length = p.freeSlots.length + (bs.length + 1)
        omega
      · rw [h7, hc.2]
        show (true && decide (p.outstanding - 1 - bs.length = 0)) =
          (true && decide (p.outstanding - (bs.length + 1) = 0))
        have hz : p.outstanding - 1 - bs.length = p.outstanding - (bs.length + 1) := by
          omega
        rw [hz]
    · rw [if_neg hc] at hstep
      have hdead1 : p.deallocated = false := by
        rw [hdead, hout0]
        simp
      have hdead2 : (p.ownerDropped && decide (p.outstanding - 1 = 0)) = false := by
        by_cases how : p.ownerDropped = true
        · have hne1 : p.outstanding ≠ 1 := fun habs => hc ⟨by omega, how⟩
          have : decide (p.outstanding - 1 = 0) = false := by
            simp only [decide_eq_false_iff_not]
            omega
          rw [this]
          simp
        · have : p.ownerDropped = false := by
            simpa using how
          rw [this]
          simp
      obtain ⟨p2, hr, h1, h2, h3, h4, h5, h6, h7⟩ :=
        ih { p with
              freeSlots := Buf.clear b :: p.freeSlots
              outstanding := p.outstanding - 1 }
          (by show (Buf.clear b :: p.freeSlots).length + (p.outstanding - 1) = p.pool_capacity
              simp only [List.length_cons]
              omega)
          (by show p.deallocated = (p.ownerDropped && decide (p.outstanding - 1 = 0))
              rw [hdead1, hdead2])
          (by show bs.length ≤ p.outstanding - 1; omega)
          (fun x hx => hmem x (List.mem_cons_of_mem _ hx))
      refine ⟨p2, ?_, h1, h2, h3, h4, ?_, ?_, ?_⟩
      · simp only [List.map_cons, run, hstep]
        exact hr
      · rw [h5]
        show p.outstanding - 1 - bs.length = p.outstanding - (bs.length + 1)
        omega
      · rw [h6]
        simp only [List.length_cons]
        show p.freeSlots.length + 1 + bs.length = p.freeSlots.length + (bs.length + 1)
        omega
      · rw [h7]
        show (p.ownerDropped && decide (p.outstanding - 1 - bs.length = 0)) =
          (p.ownerDropped && decide (p.outstanding - (bs.length + 1) = 0))
        have hz : p.outstanding - 1 - bs.length = p.outstanding - (bs.length + 1) := by
          omega
        rw [hz]

lemma get_cases (p : Pool) :
    (∃ b rest, p.freeSlots = b :: rest ∧
      p.get = some (b, { p with freeSlots := rest, outstanding := p.outstanding + 1 })) ∨
    (p.freeSlots = [] ∧
      p.get = Option.map (fun nb => (nb, p)) (Buf.new p.buf_capacity)) := by
  cases hfs : p.freeSlots with
  | nil =>
    right
    refine ⟨rfl, ?_⟩
    unfold Pool.get
    rw [hfs]
  | cons b rest =>
    left
    refine ⟨b, rest, rfl, ?_⟩
    unfold Pool.get
    rw [hfs]

lemma step_preserves {p p1 : Pool} {e : Event} (h : step p e = some p1) :
    p1.buf_capacity = p.buf_capacity ∧ p1.pool_capacity = p.pool_capacity := by
  cases e with
  | get =>
    simp only [step] at h
    split at h
    · rcases get_cases p with ⟨b, rest, hfs, hget⟩ | ⟨hfs, hget⟩
      · rw [hget] at h
        simp only [Option.map_some'] at h
        cases h
        exact ⟨rfl, rfl⟩
      · rw [hget] at h
        cases hb : Buf.new p.buf_capacity with
        | none =>
          rw [hb] at h
          simp at h
        | some nb =>
          rw [hb] at h
          simp only [Option.map_some'] at h
          cases h
          exact ⟨rfl, rfl⟩
    · cases h
  | dropBuf b =>
    simp only [step] at h
    split at h
    · unfold Pool.dropBuf at h
      split at h
      · cases h
      · split at h
        · cases h
          exact ⟨rfl, rfl⟩
        · cases h
          exact ⟨rfl, rfl⟩
    · cases h
  | dropPool =>
    simp only [step] at h
    split at h
    · cases h
      unfold Pool.drop
      split
      · exact ⟨rfl, rfl⟩
      · exact ⟨rfl, rfl⟩
    · cases h

lemma run_preserves {es : List Event} {p p1 : Pool} (h : run p es = some p1) :
    p1.buf_capacity = p.buf_capacity ∧ p1.pool_capacity = p.pool_capacity := by
  induction es generalizing p with
  | nil =>
    simp only [run] at h
    cases h
    exact ⟨rfl, rfl⟩
  | cons e es ih =>
    simp only [run] at h
    cases hs : step p e with
    | none => rw [hs] at h; cases h
    | some q =>
      rw [hs] at h
      have h1 := ih h
      have h2 := step_preserves hs
      exact ⟨h1.1.trans h2.1, h1.2.trans h2.2⟩

/-- Claim C1 (refuted, code bug): the claim states that dropping the
Pool handle while the free list is complete deallocates the arena
immediately.  The code does not: at the moment `Drop for Pool` runs,
the dropped flag `pool.1` is still `false`, so the condition
`pool.0 == pool_end && pool.1` is false and the drop only sets the
flag, leaking the arena.  Concretely, for `Pool::new(8, 1)` with no
checkouts (free list complete), `Pool::drop` leaves the backing
allocation live and merely sets the owner-dropped flag. -/
theorem C1_pool_drop_with_all_returned_does_not_deallocate :
    ∃ p, Pool.new 8 1 = some p ∧
      p.pool_remaining = p.pool_capacity ∧
      p.outstanding = 0 ∧
      p.drop.deallocated = false ∧
      p.drop.ownerDropped = true :=
  ⟨⟨8, 1, [⟨8, true, []⟩], false, 0, true, false⟩, rfl, rfl, rfl, rfl, rfl⟩

/-- Claim C2: for every reachable arena state with a live handle and
`m > 0` checked-out pooled buffers, dropping the Pool handle does not
free the backing allocation and only sets the owner-dropped flag;
thereafter, releasing any `k ≤ m` of the outstanding buffers leaves the
arena allocated exactly while `k < m`, and the drop of the last (m-th)
outstanding buffer frees it. -/
theorem C2_deferred_teardown (p : Pool) (m : Nat) (hr : Reachable p)
    (hl : p.handleLive = true) (hm : p.outstanding = m) (hm0 : 0 < m) :
    ∃ p1, step p Event.dropPool = some p1 ∧
      p1.deallocated = false ∧ p1.ownerDropped = true ∧
      ∀ bs : List Buf, bs.length ≤ m →
        (∀ b ∈ bs, b.pooled = true ∧ b.cap = p.buf_capacity) →
        ∃ p2, run p1 (bs.map Event.dropBuf) = some p2 ∧
          p2.deallocated = decide (bs.length = m) := by
  obtain ⟨hvc, hn, hsum, hslots, hflag, hdead⟩ := inv_reachable hr
  have how : p.ownerDropped = false := hflag hl
  have hd0 : p.deallocated = false := by
    cases hd : p.deallocated
    · rfl
    · rw [(hdead hd).1] at how
      cases how
  have hstep : step p Event.dropPool =
      some { p with ownerDropped := true, handleLive := false } := by
    show (if p.handleLive = true then some p.drop else none) = _
    rw [if_pos hl]
    unfold Pool.drop
    rw [if_neg (by rw [how]; simp)]
  refine ⟨{ p with ownerDropped := true, handleLive := false }, hstep, hd0, rfl, ?_⟩
  intro bs hbs hmem
  obtain ⟨p2, hrn, h1, h2, h3, h4, h5, h6, h7⟩ :=
    run_dropBufs bs { p with ownerDropped := true, handleLive := false }
      (by show p.freeSlots.length + p.outstanding = p.pool_capacity
          exact hsum)
      (by show p.deallocated = (true && decide (p.outstanding = 0))
          have hz : decide (p.outstanding = 0) = false := by
            simp only [decide_eq_false_iff_not]
            omega
          rw [hd0, hz]
          simp)
      (by show bs.length ≤ p.outstanding
          omega)
      (fun x hx => hmem x hx)
  refine ⟨p2, hrn, ?_⟩
  rw [h7]
  show (true && decide (p.outstanding - bs.length = 0)) = decide (bs.length = m)
  simp only [Bool.true_and]
  rw [decide_eq_decide]
  omega

/-- Witness for C2, at a pool of two slots with one buffer checked out:
dropping the handle leaves the arena allocated, and returning the
single outstanding buffer deallocates it. -/
theorem C2_witness :
    Reachable ⟨8, 2, [⟨8, true, []⟩], false, 1, true, false⟩ ∧
    ∃ p1, step ⟨8, 2, [⟨8, true, []⟩], false, 1, true, false⟩ Event.dropPool = some p1 ∧
      p1.deallocated = false ∧ p1.ownerDropped = true ∧
      ∀ bs : List Buf, bs.length ≤ 1 →
        (∀ b ∈ bs, b.pooled = true ∧ b.cap = 8) →
        ∃ p2, run p1 (bs.map Event.dropBuf) = some p2 ∧
          p2.deallocated = decide (bs.length = 1) :=
  have hreach : Reachable ⟨8, 2, [⟨8, true, []⟩], false, 1, true, false⟩ :=
    ⟨8, 2, ⟨8, 2, [⟨8, true, []⟩, ⟨8, true, []⟩], false, 0, true, false⟩, rfl,
      [Event.get], rfl⟩
  ⟨hreach, C2_deferred_teardown _ 1 hreach rfl rfl (by decide)⟩

/-- Claim C3: `append` returns true and extends the length by the slice
length exactly when the new length fits the capacity; on false the
buffer is unchanged; `Write::write` has exactly the same state effect
and reports the same outcome as `Ok(len)` or an error value. -/
theorem C3_append_write_contract (b : Buf) (s : List Nat) :
    ((b.append s).fst = true ↔ b.len + s.length ≤ b.capacity) ∧
    ((b.append s).fst = true → (b.append s).snd.len = b.len + s.length) ∧
    ((b.append s).fst = false → (b.append s).snd = b) ∧
    (b.write s).snd = (b.append s).snd ∧
    ((b.write s).fst = Except.ok s.length ↔ (b.append s).fst = true) ∧
    ((b.write s).fst = Except.error WriteError.insufficientCapacity ↔
      (b.append s).fst = false) := by
  by_cases h : b.data.length + s.length ≤ b.cap <;>
    simp [Buf.append, Buf.write, Buf.len, Buf.capacity, h]

/-- Witness for C3 at a concrete buffer and slice. -/
theorem C3_witness :
    ((Buf.append ⟨8, false, [1, 2]⟩ [3]).fst = true ↔ 2 + 1 ≤ 8) ∧
    ((Buf.append ⟨8, false, [1, 2]⟩ [3]).fst = true →
      (Buf.append ⟨8, false, [1, 2]⟩ [3]).snd.len = 2 + 1) ∧
    ((Buf.append ⟨8, false, [1, 2]⟩ [3]).fst = false →
      (Buf.append ⟨8, false, [1, 2]⟩ [3]).snd = ⟨8, false, [1, 2]⟩) ∧
    (Buf.write ⟨8, false, [1, 2]⟩ [3]).snd = (Buf.append ⟨8, false, [1, 2]⟩ [3]).snd ∧
    ((Buf.write ⟨8, false, [1, 2]⟩ [3]).fst = Except.ok 1 ↔
      (Buf.append ⟨8, false, [1, 2]⟩ [3]).fst = true) ∧
    ((Buf.write ⟨8, false, [1, 2]⟩ [3]).fst =
        Except.error WriteError.insufficientCapacity ↔
      (Buf.append ⟨8, false, [1, 2]⟩ [3]).fst = false) :=
  C3_append_write_contract ⟨8, false, [1, 2]⟩ [3]

/-- Claim C4: pool accounting.  A fresh `Pool::new(c, n)` has
`pool_remaining() == n`; after `k ≤ n` calls to `get` with no releases
`pool_remaining() == n − k` with `k` outstanding checkouts; on every
reachable state `pool_remaining() + outstanding == slot_count`; and
releasing all outstanding pooled buffers while the handle is live
restores `pool_remaining() == n`. -/
theorem C4_pool_accounting (c n : Nat) (hc : validCapacity c = true) (hn : 0 < n) :
    ∃ init, Pool.new c n = some init ∧
      init.pool_remaining = n ∧
      (∀ k, k ≤ n → ∃ p, run init (List.replicate k Event.get) = some p ∧
        p.pool_remaining = n - k ∧ p.outstanding = k) ∧
      (∀ p, ReachableFrom init p →
        p.pool_capacity = n ∧ p.pool_remaining + p.outstanding = n) ∧
      (∀ (p : Pool) (bs : List Buf), ReachableFrom init p → p.handleLive = true →
        bs.length = p.outstanding →
        (∀ b ∈ bs, b.pooled = true ∧ b.cap = p.buf_capacity) →
        ∃ p2, run p (bs.map Event.dropBuf) = some p2 ∧ p2.pool_remaining = n) := by
  have hnew : Pool.new c n =
      some ⟨c, n, List.replicate n ⟨c, true, []⟩, false, 0, true, false⟩ := by
    unfold Pool.new
    rw [if_pos (by rw [hc]; simpa using hn)]
  refine ⟨_, hnew, ?_, ?_, ?_, ?_⟩
  · show (List.replicate n (⟨c, true, []⟩ : Buf)).length = n
    simp
  · intro k hk
    obtain ⟨p, hr, h1, h2, h3, h4, h5, h6, h7⟩ :=
      run_gets k ⟨c, n, List.replicate n ⟨c, true, []⟩, false, 0, true, false⟩ rfl
        (by simpa using hk)
    refine ⟨p, hr, ?_, ?_⟩
    · unfold Pool.pool_remaining
      rw [h3]
      simp
    · rw [h4]
      show 0 + k = k
      omega
  · rintro p ⟨es, hrun⟩
    have hinv := inv_run (inv_new hnew) hrun
    have hpres := run_preserves hrun
    have hn2 : p.pool_capacity = n := hpres.2
    refine ⟨hn2, ?_⟩
    have hsum := hinv.2.2.1
    rw [hn2] at hsum
    exact hsum
  · rintro p bs ⟨es, hrun⟩ hl hblen hmem
    have hinv := inv_run (inv_new hnew) hrun
    have hpres := run_preserves hrun
    obtain ⟨hvc2, hn2, hsum, hslots, hflag, hdead⟩ := hinv
    have how : p.ownerDropped = false := hflag hl
    have hd0 : p.deallocated = false := by
      cases hd : p.deallocated
      · rfl
      · rw [(hdead hd).1] at how
        cases how
    obtain ⟨p2, hrn, h1, h2, h3, h4, h5, h6, h7⟩ :=
      run_dropBufs bs p hsum (by rw [hd0, how]; simp) (le_of_eq hblen) hmem
    refine ⟨p2, hrn, ?_⟩
    unfold Pool.pool_remaining
    rw [h6, hblen, hsum]
    exact hpres.2

/-- Witness for C4, at `Pool::new(8, 2)`. -/
theorem C4_witness :
    validCapacity 8 = true ∧ 0 < 2 ∧
    ∃ init, Pool.new 8 2 = some init ∧
      init.pool_remaining = 2 ∧
      (∀ k, k ≤ 2 → ∃ p, run init (List.replicate k Event.get) = some p ∧
        p.pool_remaining = 2 - k ∧ p.outstanding = k) ∧
      (∀ p, ReachableFrom init p →
        p.pool_capacity = 2 ∧ p.pool_remaining + p.outstanding = 2) ∧
      (∀ (p : Pool) (bs : List Buf), ReachableFrom init p → p.handleLive = true →
        bs.length = p.outstanding →
        (∀ b ∈ bs, b.pooled = true ∧ b.cap = p.buf_capacity) →
        ∃ p2, run p (bs.map Event.dropBuf) = some p2 ∧ p2.pool_remaining = 2) :=
  ⟨by decide, by decide, C4_pool_accounting 8 2 (by decide) (by decide)⟩

/-- Claim C5: on every reachable state with a live handle, `get`
succeeds; when `pool_remaining() == 0` it returns a standalone buffer
(pooled flag clear) of capacity `buffer_capacity` and length 0, leaves
the arena state untouched, and the drop of that buffer takes the
direct-deallocation branch, never touching the free list. -/
theorem C5_pool_exhaustion_fallback (p : Pool) (hr : Reachable p)
    (_hl : p.handleLive = true) :
    (∃ r, p.get = some r) ∧
    (p.pool_remaining = 0 →
      p.get = some (⟨p.buf_capacity, false, []⟩, p) ∧
      Buf.dropAction ⟨p.buf_capacity, false, []⟩ = DropAction.deallocate) := by
  have hinv := inv_reachable hr
  rcases get_of_inv hinv with ⟨hfs, hget⟩ | ⟨b, rest, hfs, hbc, hbp, hbd, hget⟩
  · exact ⟨⟨_, hget⟩, fun _ => ⟨hget, rfl⟩⟩
  · refine ⟨⟨_, hget⟩, ?_⟩
    intro h0
    unfold Pool.pool_remaining at h0
    rw [hfs] at h0
    cases h0

/-- Witness for C5, at an exhausted single-slot pool. -/
theorem C5_witness :
    Reachable ⟨8, 1, [], false, 1, true, false⟩ ∧
    ((∃ r, Pool.get ⟨8, 1, [], false, 1, true, false⟩ = some r) ∧
      ((⟨8, 1, [], false, 1, true, false⟩ : Pool).pool_remaining = 0 →
        Pool.get ⟨8, 1, [], false, 1, true, false⟩ =
          some (⟨8, false, []⟩, ⟨8, 1, [], false, 1, true, false⟩) ∧
        Buf.dropAction ⟨8, false, []⟩ = DropAction.deallocate)) :=
  have hreach : Reachable ⟨8, 1, [], false, 1, true, false⟩ :=
    ⟨8, 1, ⟨8, 1, [⟨8, true, []⟩], false, 0, true, false⟩, rfl, [Event.get], rfl⟩
  ⟨hreach, C5_pool_exhaustion_fallback _ hreach rfl⟩

/-- Claim C6: round trip.  When the prior content plus the slice fits
the capacity, `append` succeeds and `as_slice` afterwards is exactly
the prior content followed by the slice. -/
theorem C6_round_trip (b : Buf) (s : List Nat) (h : b.len + s.length ≤ b.capacity) :
    (b.append s).fst = true ∧ (b.append s).snd.as_slice = b.as_slice ++ s := by
  have h2 : b.data.length + s.length ≤ b.cap := h
  unfold Buf.append
  rw [if_pos h2]
  exact ⟨rfl, rfl⟩

/-- Witness for C6 at a concrete buffer and slice. -/
theorem C6_witness :
    Buf.len ⟨8, false, [1]⟩ + 2 ≤ Buf.capacity ⟨8, false, [1]⟩ ∧
    ((Buf.append ⟨8, false, [1]⟩ [2, 3]).fst = true ∧
      (Buf.append ⟨8, false, [1]⟩ [2, 3]).snd.as_slice =
        Buf.as_slice ⟨8, false, [1]⟩ ++ [2, 3]) :=
  ⟨by decide, C6_round_trip ⟨8, false, [1]⟩ [2, 3] (by decide)⟩

/-- Claim C7: clone independence.  For every buffer whose header is
well formed (length at most capacity, capacity accepted by `Buf::new` —
true of every buffer the library constructs), `clone` returns a new
standalone buffer: pooled flag clear, same masked capacity, identical
length-bounded content, and its drop takes the direct-deallocation
branch, never re-entering any arena free list.  The clone is a separate
value, so mutating it cannot change the original. -/
theorem C7_clone_independence (b : Buf) (hwf : b.len ≤ b.capacity)
    (hc : validCapacity b.capacity = true) :
    ∃ c, b.clone = some c ∧ c.pooled = false ∧ c.capacity = b.capacity ∧
      c.as_slice = b.as_slice ∧ c.dropAction = DropAction.deallocate := by
  refine ⟨⟨b.cap, false, b.data⟩, ?_, rfl, rfl, rfl, rfl⟩
  unfold Buf.clone Buf.new
  rw [if_pos hc]
  simp only [Option.map_some', Option.some.injEq]
  unfold Buf.append
  rw [if_pos (by simpa using hwf)]
  simp [Buf.as_slice, Buf.capacity]

/-- Witness for C7 at a concrete buffer. -/
theorem C7_witness :
    (Buf.len ⟨8, false, [5, 6]⟩ ≤ Buf.capacity ⟨8, false, [5, 6]⟩ ∧
      validCapacity (Buf.capacity ⟨8, false, [5, 6]⟩) = true) ∧
    ∃ c, Buf.clone ⟨8, false, [5, 6]⟩ = some c ∧ c.pooled = false ∧
      c.capacity = Buf.capacity ⟨8, false, [5, 6]⟩ ∧
      c.as_slice = Buf.as_slice ⟨8, false, [5, 6]⟩ ∧
      c.dropAction = DropAction.deallocate :=
  ⟨⟨by decide, by decide⟩,
    C7_clone_independence ⟨8, false, [5, 6]⟩ (by decide) (by decide)⟩

/-- Claim C8 counterexample: the claim states that for `min` above the
configured buffer capacity, `get_with_min_capacity(min)` returns a
standalone buffer of capacity exactly `min`.  For a pool with
`buffer_capacity = 8` and `min = 9`, the delegated `Buf::new(9)`
instead panics on its divisible-by-8 assertion (modelled by `none`),
so no buffer is returned. -/
theorem C8_counterexample :
    Pool.new 8 1 = some ⟨8, 1, [⟨8, true, []⟩], false, 0, true, false⟩ ∧
    (8 : Nat) < 9 ∧
    Pool.get_with_min_capacity ⟨8, 1, [⟨8, true, []⟩], false, 0, true, false⟩ 9 = none :=
  ⟨rfl, by decide, rfl⟩

/-- Claim C8 as amended: if `min ≤ buffer_capacity` the call is exactly
`get()`; if `min > buffer_capacity` and `min` satisfies the `Buf::new`
preconditions (positive, at most `MAX_CAPACITY`, divisible by 8) it
returns a standalone buffer of capacity exactly `min` and leaves the
arena untouched; if `min > buffer_capacity` violates those
preconditions, `Buf::new` panics. -/
theorem C8_get_with_min_capacity (p : Pool) (m : Nat) :
    (m ≤ p.buf_capacity → p.get_with_min_capacity m = p.get) ∧
    (p.buf_capacity < m → validCapacity m = true →
      p.get_with_min_capacity m = some (⟨m, false, []⟩, p)) ∧
    (p.buf_capacity < m → validCapacity m = false →
      p.get_with_min_capacity m = none) := by
  unfold Pool.get_with_min_capacity Buf.new
  refine ⟨fun h => by rw [if_pos h], fun h1 h2 => ?_, fun h1 h2 => ?_⟩
  · rw [if_neg (by omega), if_pos h2]
    rfl
  · rw [if_neg (by omega), if_neg (by simp [h2])]
    rfl

/-- Witness for C8 at a single-slot pool of capacity 8 and `min = 16`. -/
theorem C8_witness :
    ((8 : Nat) < 16 ∧ validCapacity 16 = true) ∧
    Pool.get_with_min_capacity ⟨8, 1, [⟨8, true, []⟩], false, 0, true, false⟩ 16 =
      some (⟨16, false, []⟩, ⟨8, 1, [⟨8, true, []⟩], false, 0, true, false⟩) :=
  ⟨⟨by decide, by decide⟩,
    (C8_get_with_min_capacity ⟨8, 1, [⟨8, true, []⟩], false, 0, true, false⟩ 16).2.1
      (by decide) (by decide)⟩

/-- Claim C9: `Buf::new(capacity)` panics exactly when the capacity is
zero, above `2^31 − 1`, or not divisible by 8, and otherwise allocates
a buffer of exactly that capacity (no clamping) with length 0;
`Pool::new(buf_capacity, pool_capacity)` panics exactly when
`buf_capacity` violates the same conditions or `pool_capacity` is
zero. -/
theorem C9_constructor_preconditions (c n : Nat) :
    (Buf.new c = none ↔ (c = 0 ∨ MAX_CAPACITY < c ∨ c % 8 ≠ 0)) ∧
    (∀ b, Buf.new c = some b → b.capacity = c ∧ b.len = 0) ∧
    (Pool.new c n = none ↔ (c = 0 ∨ MAX_CAPACITY < c ∨ c % 8 ≠ 0 ∨ n = 0)) := by
  have hval : validCapacity c = true ↔ (c ≤ MAX_CAPACITY ∧ 0 < c ∧ c % 8 = 0) := by
    simp [validCapacity, and_assoc]
  have hvalf : validCapacity c = false ↔ (c = 0 ∨ MAX_CAPACITY < c ∨ c % 8 ≠ 0) := by
    rw [Bool.eq_false_iff, ne_eq, hval]
    constructor
    · intro h
      by_cases h0 : c = 0
      · exact Or.inl h0
      · by_cases h1 : MAX_CAPACITY < c
        · exact Or.inr (Or.inl h1)
        · refine Or.inr (Or.inr ?_)
          intro h2
          exact h ⟨by omega, by omega, h2⟩
    · rintro (h | h | h) ⟨h1, h2, h3⟩ <;> omega
  refine ⟨?_, ?_, ?_⟩
  · rw [← hvalf]
    unfold Buf.new
    cases hv : validCapacity c
    · simp
    · simp
  · intro b hb
    unfold Buf.new at hb
    split at hb
    · cases hb
      exact ⟨rfl, rfl⟩
    · cases hb
  · have hsplit : (c = 0 ∨ MAX_CAPACITY < c ∨ c % 8 ≠ 0 ∨ n = 0) ↔
        ((c = 0 ∨ MAX_CAPACITY < c ∨ c % 8 ≠ 0) ∨ n = 0) := by
      tauto
    rw [hsplit, ← hvalf]
    unfold Pool.new
    cases hv : validCapacity c
    · by_cases hn : 0 < n <;> simp [hn]
    · by_cases hn : 0 < n <;> simp [hn] <;> omega

/-- Witness for C9: a valid capacity, an invalid capacity, and an
empty-pool request. -/
theorem C9_witness :
    Buf.new 9 = none ∧
    Buf.new 8 = some ⟨8, false, []⟩ ∧
    (Buf.capacity ⟨8, false, []⟩ = 8 ∧ Buf.len ⟨8, false, []⟩ = 0) ∧
    Pool.new 8 0 = none :=
  ⟨(C9_constructor_preconditions 9 1).1.mpr (by decide),
   rfl,
   (C9_constructor_preconditions 8 1).2.1 ⟨8, false, []⟩ rfl,
   (C9_constructor_preconditions 8 0).2.2.mpr (by decide)⟩

/-- Claim C10: every buffer returned by `get` on a reachable arena
state is empty.  Free slots are stamped with length 0 at pool
initialization, a pooled drop clears the length word before pushing
the pointer back, and the fallback `Buf::new` starts at length 0, so
the popped or freshly allocated buffer always has `len() == 0` and
`is_empty()`. -/
theorem C10_get_returns_empty (p : Pool) (hr : Reachable p) (b : Buf) (p2 : Pool)
    (h : p.get = some (b, p2)) :
    b.data = [] ∧ b.len = 0 ∧ b.is_empty = true := by
  have hinv := inv_reachable hr
  rcases get_of_inv hinv with ⟨hfs, hget⟩ | ⟨x, rest, hfs, hxc, hxp, hxd, hget⟩
  · rw [hget] at h
    cases h
    exact ⟨rfl, rfl, rfl⟩
  · rw [hget] at h
    cases h
    refine ⟨hxd, ?_, ?_⟩
    · unfold Buf.len
      rw [hxd]
      rfl
    · unfold Buf.is_empty
      rw [hxd]
      rfl

/-- Witness for C10: the buffer checked out of a fresh single-slot pool
is empty. -/
theorem C10_witness :
    Reachable ⟨8, 1, [⟨8, true, []⟩], false, 0, true, false⟩ ∧
    Pool.get ⟨8, 1, [⟨8, true, []⟩], false, 0, true, false⟩ =
      some (⟨8, true, []⟩, ⟨8, 1, [], false, 1, true, false⟩) ∧
    ((⟨8, true, []⟩ : Buf).data = [] ∧ (⟨8, true, []⟩ : Buf).len = 0 ∧
      (⟨8, true, []⟩ : Buf).is_empty = true) :=
  have hreach : Reachable ⟨8, 1, [⟨8, true, []⟩], false, 0, true, false⟩ :=
    ⟨8, 1, ⟨8, 1, [⟨8, true, []⟩], false, 0, true, false⟩, rfl, [], rfl⟩
  ⟨hreach, rfl, C10_get_returns_empty _ hreach _ _ rfl⟩
